import Mathlib

/-!
Verification of the `Hahaton-Cherpy` website scraper and question-answering
pipeline (`parses.py`, `main.py`).

Strings manipulated character-by-character by the Python code are embedded
as `List Char`; Python `str` values that are only passed around or compared
are embedded as Lean `String`.  Network and OCR effects are embedded as
explicit oracles carried in an environment record, and the scraper's mutable
fields (`visited_urls`, `data`, the filesystem) as an explicit state record.
-/

/-! ## Text Normalizer (`CompleteWebsiteScraper.clean_text`)

`clean_text` applies four regex passes:
`re.sub(r'[^\w\s.,:;!?()\-\n]', '', text)`, `re.sub(r'\s+', ' ', text)`,
`re.sub(r'-\s+', '', text)`, and finally `str.strip()`.
-/

/-- Python regex `\w` (word character), restricted to the character ranges
this scraper processes: ASCII alphanumerics, underscore, and the Cyrillic
letters of the Russian text it extracts (other Unicode word characters are
not modelled). -/
def isWordChar (c : Char) : Bool :=
  c.isAlphanum || c = '_' ||
  (0x410 ≤ c.toNat && c.toNat ≤ 0x44F) || c = 'ё' || c = 'Ё'

/-- Python regex `\s` / `str.strip` whitespace: space, tab, newline,
carriage return, vertical tab, form feed. -/
def isSpaceChar (c : Char) : Bool :=
  c = ' ' || c = '\t' || c = '\n' || c = '\r' || c = '\x0b' || c = '\x0c'

/-- The punctuation admitted by the character class `[^\w\s.,:;!?()\-\n]`. -/
def isPunctAllowed (c : Char) : Bool :=
  c = '.' || c = ',' || c = ':' || c = ';' || c = '!' || c = '?' ||
  c = '(' || c = ')' || c = '-'

/-- A character survives `re.sub(r'[^\w\s.,:;!?()\-\n]', '', text)` iff it is
a word character, whitespace, or one of the allowed punctuation marks
(`\n` is already whitespace). -/
def isAllowedChar (c : Char) : Bool :=
  isWordChar c || isSpaceChar c || isPunctAllowed c

/-- First pass: `re.sub(r'[^\w\s.,:;!?()\-\n]', '', text)` deletes every
character outside the allowed class. -/
def removeDisallowed (s : List Char) : List Char := s.filter isAllowedChar

/-- Scanner for `re.sub(r'\s+', ' ', text)`: the flag records whether the
previous character was part of a whitespace run already replaced by `' '`. -/
def collapseAux : Bool → List Char → List Char
  | _, [] => []
  | prevSpace, c :: rest =>
    if isSpaceChar c then
      if prevSpace then collapseAux true rest else ' ' :: collapseAux true rest
    else c :: collapseAux false rest

/-- Second pass: `re.sub(r'\s+', ' ', text)` replaces every maximal
whitespace run by a single space. -/
def collapseWs (s : List Char) : List Char := collapseAux false s

/-- Is the first character whitespace? (`False` on the empty string.) -/
def headIsSpace : List Char → Bool
  | [] => false
  | c :: _ => isSpaceChar c

/-- Scanner for `re.sub(r'-\s+', '', text)`: the flag records that we are
inside the whitespace run of a match currently being deleted (the greedy
`\s+`). -/
def rhwAux : Bool → List Char → List Char
  | _, [] => []
  | skipping, c :: rest =>
    if skipping && isSpaceChar c then rhwAux true rest
    else if c = '-' && headIsSpace rest then rhwAux true rest
    else c :: rhwAux false rest

/-- Third pass: `re.sub(r'-\s+', '', text)` deletes, scanning left to right,
every `'-'` together with the maximal (greedy `\s+`) whitespace run that
immediately follows it. -/
def removeHyphenWs (s : List Char) : List Char := rhwAux false s

/-- Helper for `str.strip`: remove trailing whitespace. -/
def stripTrailing : List Char → List Char
  | [] => []
  | c :: rest =>
    match stripTrailing rest with
    | [] => if isSpaceChar c then [] else [c]
    | r => c :: r

/-- Python `str.strip()`: drop leading and trailing whitespace. -/
def pyStrip (s : List Char) : List Char :=
  stripTrailing (s.dropWhile isSpaceChar)

/-- `CompleteWebsiteScraper.clean_text`: the four passes in source order. -/
def clean_text (s : List Char) : List Char :=
  pyStrip (removeHyphenWs (collapseWs (removeDisallowed s)))

/-! ### Shape predicates for `clean_text` outputs -/

/-- No two adjacent characters of the list satisfy `bad`. -/
def noPair (bad : Char → Char → Bool) : List Char → Bool
  | c :: d :: rest => !bad c d && noPair bad (d :: rest)
  | _ => true

/-- Every whitespace character is a plain space. -/
def noBadWs (s : List Char) : Bool := s.all fun c => !isSpaceChar c || c = ' '

/-- No two adjacent whitespace characters. -/
def noDoubleSpace (s : List Char) : Bool :=
  noPair (fun c d => isSpaceChar c && isSpaceChar d) s

/-- No `'-'` immediately followed by whitespace. -/
def noHyphenSpace (s : List Char) : Bool :=
  noPair (fun c d => c = '-' && isSpaceChar d) s

/-- Is the last character non-whitespace? (`True` on the empty string.) -/
def lastNotSpace : List Char → Bool
  | [] => true
  | [c] => !isSpaceChar c
  | _ :: rest => lastNotSpace rest

/-! ## URL handling

Models of the `urllib.parse` functions the scraper calls (`urlparse(...)
.netloc` and `urljoin`), restricted to the reference shapes the scraper
produces: absolute references with or without an authority, scheme-relative
(`//host/...`), host-relative (`/...`) and document-relative references.
Dot-segment normalization and params/query/fragment recombination are not
modelled. -/

/-- Characters admitted in a URL scheme. -/
def isSchemeChar (c : Char) : Bool :=
  c.isAlpha || c.isDigit || c = '+' || c = '-' || c = '.'

def headIsAlpha : List Char → Bool
  | [] => false
  | c :: _ => c.isAlpha

/-- Split a leading `scheme:` off a reference, as `urlparse` does: the part
before the first `':'` is a scheme iff it is nonempty, starts with a letter
and consists of scheme characters.  Returns the (lowercased) scheme, if any,
and the remainder. -/
def splitScheme (url : List Char) : Option (List Char) × List Char :=
  let pre := url.takeWhile fun c => !(c = ':')
  if decide (pre.length < url.length) && !pre.isEmpty && headIsAlpha pre &&
      pre.all isSchemeChar then
    (some (pre.map Char.toLower), url.drop (pre.length + 1))
  else
    (none, url)

def schemeOf (url : List Char) : Option (List Char) := (splitScheme url).1

def afterScheme (url : List Char) : List Char := (splitScheme url).2

def startsWithSlashSlash : List Char → Bool
  | '/' :: '/' :: _ => true
  | _ => false

/-- `urlparse(url).netloc`: the authority component, present only after a
literal `//`, extending to the next `/`, `?` or `#`. -/
def netlocOf (url : List Char) : List Char :=
  let rest := afterScheme url
  if startsWithSlashSlash rest then
    (rest.drop 2).takeWhile fun c => !(c = '/') && !(c = '?') && !(c = '#')
  else []

/-- `urlparse(url).path` (ignoring params): after the authority, up to the
first `?` or `#`. -/
def pathOf (url : List Char) : List Char :=
  let rest := afterScheme url
  let p := if startsWithSlashSlash rest then
      (rest.drop 2).dropWhile fun c => !(c = '/') && !(c = '?') && !(c = '#')
    else rest
  p.takeWhile fun c => !(c = '?') && !(c = '#')

/-- Everything up to and including the last `/` of a path (empty if the path
has no `/`). -/
def dirOf (path : List Char) : List Char :=
  (path.reverse.dropWhile fun c => !(c = '/')).reverse

/-- The `scheme://netloc` prefix of an absolute URL. -/
def schemeNetloc (url : List Char) : List Char :=
  (match schemeOf url with
   | some s => s ++ [':']
   | none => []) ++
  (if startsWithSlashSlash (afterScheme url) then '/' :: '/' :: netlocOf url
   else [])

/-- Python's `urllib.parse.uses_relative`: schemes that allow relative
resolution.  `urljoin` leaves references in any other scheme unchanged. -/
def uses_relative : List (List Char) :=
  ["".data, "ftp".data, "http".data, "gopher".data, "nntp".data, "imap".data,
   "wais".data, "file".data, "https".data, "shttp".data, "mms".data,
   "prospero".data, "rtsp".data, "rtspu".data, "sftp".data, "svn".data,
   "svn+ssh".data, "ws".data, "wss".data]

/-- Model of `urllib.parse.urljoin(base, url)` (without dot-segment
normalization): a reference whose scheme differs from the base's, or whose
scheme does not allow relative resolution, is returned unchanged; a
reference with an authority keeps it; an empty reference yields the base; a
rooted path replaces the base's path; anything else replaces the base
path's last segment. -/
def urljoin (base url : List Char) : List Char :=
  let bscheme := match schemeOf base with
    | some s => s
    | none => []
  let scheme := match schemeOf url with
    | some s => s
    | none => bscheme
  if !(decide (scheme = bscheme)) || !(uses_relative.contains scheme) then url
  else
    let rest := afterScheme url
    if startsWithSlashSlash rest then bscheme ++ ':' :: rest
    else if rest.isEmpty then base
    else
      match rest with
      | '/' :: _ => schemeNetloc base ++ rest
      | _ =>
        let bp := pathOf base
        let dir := if bp.contains '/' then dirOf bp
          else if (netlocOf base).isEmpty then [] else ['/']
        schemeNetloc base ++ dir ++ rest

/-! ## Link Classifier (`is_valid_url`, `extract_links`) -/

/-- `CompleteWebsiteScraper.is_valid_url`: the URL has a netloc and it equals
the root URL's netloc. -/
def is_valid_url (root_url url : List Char) : Bool :=
  !(netlocOf url).isEmpty && decide (netlocOf url = netlocOf root_url)

/-- Python `set.add`: Python sets are embedded as duplicate-free lists in
insertion order (set iteration order is unspecified in the source). -/
def setAdd (x : List Char) (s : List (List Char)) : List (List Char) :=
  if s.contains x then s else s ++ [x]

/-- The five link buckets built by `extract_links`
(`internal`, `external`, `files.pdf`, `files.images`, `files.other`). -/
structure Links where
  internal : List (List Char)
  external : List (List Char)
  files_pdf : List (List Char)
  files_images : List (List Char)
  files_other : List (List Char)

deriving DecidableEq

def emptyLinks : Links := ⟨[], [], [], [], []⟩

/-- Does `s` end with `suffix`? (`str.endswith`.) -/
def endsWithL (s suffix : List Char) : Bool :=
  decide (suffix.length ≤ s.length) &&
  decide (s.drop (s.length - suffix.length) = suffix)

def toLowerL (s : List Char) : List Char := s.map Char.toLower

/-- `href.split('/')[-1]`: the part of `href` after its last `/` (all of
`href` when it has no `/`). -/
def lastSegment (href : List Char) : List Char :=
  (href.reverse.takeWhile fun c => !(c = '/')).reverse

/-- The image extensions tested by `extract_links`. -/
def imageExts : List (List Char) :=
  [".jpg".data, ".jpeg".data, ".png".data, ".gif".data, ".bmp".data]

/-- Loop body of `extract_links`: resolve `href` against the page URL and add
the absolute URL to the bucket selected by the source's `if`/`elif` chain. -/
def addLink (root_url base : List Char) (links : Links) (href : List Char) :
    Links :=
  let absolute_url := urljoin base href
  if !(is_valid_url root_url absolute_url) then
    { links with external := setAdd absolute_url links.external }
  else if endsWithL (toLowerL href) ".pdf".data then
    { links with files_pdf := setAdd absolute_url links.files_pdf }
  else if imageExts.any (fun ext => endsWithL (toLowerL href) ext) then
    { links with files_images := setAdd absolute_url links.files_images }
  else if (lastSegment href).contains '.' then
    { links with files_other := setAdd absolute_url links.files_other }
  else
    { links with internal := setAdd absolute_url links.internal }

/-- `CompleteWebsiteScraper.extract_links`, folded over the page's anchor
`href` values in document order. -/
def extract_links (root_url base : List Char) (hrefs : List (List Char)) :
    Links :=
  hrefs.foldl (addLink root_url base) emptyLinks

/-- The five buckets, as a type: used to state that classification is a
total function into exactly one bucket. -/
inductive Bucket where
  | internal
  | external
  | files_pdf
  | files_images
  | files_other

deriving DecidableEq

def getBucket : Bucket → Links → List (List Char)
  | .internal, l => l.internal
  | .external, l => l.external
  | .files_pdf, l => l.files_pdf
  | .files_images, l => l.files_images
  | .files_other, l => l.files_other

/-- The bucket `addLink` sends `href` to: the source's decision chain as a
function. Determinism of the Link Classifier is this function's
well-definedness. -/
def classifyLink (root_url base href : List Char) : Bucket :=
  let absolute_url := urljoin base href
  if !(is_valid_url root_url absolute_url) then .external
  else if endsWithL (toLowerL href) ".pdf".data then .files_pdf
  else if imageExts.any (fun ext => endsWithL (toLowerL href) ext) then .files_images
  else if (lastSegment href).contains '.' then .files_other
  else .internal

/-! ## Page Extractor: HTML tree and visible text

`BeautifulSoup(response.text, 'html.parser')` is embedded as a tree of
element and text nodes (`NodeList` is the forest of children; attribute
values are kept as strings). -/

mutual
inductive Node where
  | text (s : List Char) : Node
  | elem (tag : String) (attrs : List (String × List Char)) (children : NodeList) : Node
deriving DecidableEq

inductive NodeList where
  | nil : NodeList
  | cons (n : Node) (rest : NodeList) : NodeList
deriving DecidableEq
end

/-- The tags removed before text extraction:
`soup(['script', 'style', 'iframe', 'noscript'])` + `decompose()`. -/
def forbiddenTags : List String := ["script", "style", "iframe", "noscript"]

mutual
/-- `element.decompose()` applied to every `script`/`style`/`iframe`/
`noscript` element: drop those subtrees entirely. -/
def decomposeNode (n : Node) : Option Node :=
  match n with
  | .text s => some (.text s)
  | .elem tag attrs children =>
    if forbiddenTags.contains tag then none
    else some (.elem tag attrs (decomposeForest children))

def decomposeForest (l : NodeList) : NodeList :=
  match l with
  | .nil => .nil
  | .cons n rest =>
    match decomposeNode n with
    | some n2 => .cons n2 (decomposeForest rest)
    | none => decomposeForest rest
end

mutual
/-- All text nodes of a tree, in document order (BeautifulSoup's
`_all_strings`). -/
def stringsNode (n : Node) : List (List Char) :=
  match n with
  | .text s => [s]
  | .elem _ _ children => stringsForest children

def stringsForest (l : NodeList) : List (List Char) :=
  match l with
  | .nil => []
  | .cons n rest => stringsNode n ++ stringsForest rest
end

/-- Join with `'\n'`. -/
def joinNl (xs : List (List Char)) : List Char :=
  match xs with
  | [] => []
  | [x] => x
  | x :: rest => x ++ '\n' :: joinNl rest

/-- `str.split('\n')`. -/
def splitNl : List Char → List (List Char)
  | [] => [[]]
  | c :: rest =>
    if c = '\n' then [] :: splitNl rest
    else
      match splitNl rest with
      | [] => [[c]]
      | p :: ps => (c :: p) :: ps

/-- `soup.get_text('\n', strip=True)`: every text node stripped, empty
strings dropped, the rest joined by the separator. -/
def get_text_nl (doc : NodeList) : List Char :=
  joinNl (((stringsForest doc).map pyStrip).filter fun s => !s.isEmpty)

/-- The `main_text` expression of `scrape_page` (line 210): split the
`get_text` result on newlines, keep the lines whose `strip()` is nonempty,
join by newline.  Applied after `decompose`. -/
def main_text (doc : NodeList) : List Char :=
  joinNl ((splitNl (get_text_nl (decomposeForest doc))).filter
    fun line => !(pyStrip line).isEmpty)

mutual
/-- The text nodes lying outside every removed
(`script`/`style`/`iframe`/`noscript`) subtree, in document order: the
"remaining text nodes" of the specification. -/
def visibleStringsNode (n : Node) : List (List Char) :=
  match n with
  | .text s => [s]
  | .elem tag _ children =>
    if forbiddenTags.contains tag then [] else visibleStringsForest children

def visibleStringsForest (l : NodeList) : List (List Char) :=
  match l with
  | .nil => []
  | .cons n rest => visibleStringsNode n ++ visibleStringsForest rest
end

/-- The specification's visible-text formula, exactly as stated: the
remaining text nodes joined by newline, with blank lines removed, in
document order. -/
def claimVisibleText (doc : NodeList) : List Char :=
  joinNl ((splitNl (joinNl (visibleStringsForest doc))).filter
    fun line => !(pyStrip line).isEmpty)

/-- The amended visible-text formula: the remaining text nodes, each
stripped of leading and trailing whitespace with empty results dropped,
split into their lines, blank lines removed, joined by newline, in document
order. -/
def amendedVisibleText (doc : NodeList) : List Char :=
  joinNl (((((visibleStringsForest doc).map pyStrip).filter
      fun s => !s.isEmpty).map splitNl).flatten.filter
    fun line => !(pyStrip line).isEmpty)

/-! ## Effect model

Network and OCR calls are embedded as oracles in an environment; the
scraper's mutable state (`visited_urls`, `data`, the filesystem) is passed
explicitly.  An oracle returning `none` / `Except.error` models the Python
call raising (the code catches these with `try`/`except`). -/

/-- Prefix test on character lists. -/
def listStartsWith : List Char → List Char → Bool
  | _, [] => true
  | [], _ :: _ => false
  | c :: s, d :: pre => c = d && listStartsWith s pre

/-- Python `needle in hay` on strings: substring containment. -/
def containsSeq (hay needle : List Char) : Bool :=
  match hay with
  | [] => needle.isEmpty
  | _ :: rest => listStartsWith hay needle || containsSeq rest needle

/-- Result of a `session.get` for an HTML page: its content type and its
parse tree (`BeautifulSoup(response.text, 'html.parser')`). -/
structure PageResp where
  contentType : List Char
  doc : NodeList

/-- Result of a `session.get` for an image: the response headers the code
inspects. -/
structure ImgResp where
  contentLength : Nat
  contentType : List Char

/-- Result of a `session.get` for a PDF: the header the code inspects. -/
structure PdfResp where
  contentLength : Nat

/-- The scraper's configuration (the `__init__` fields) plus the oracles for
its external calls. -/
structure Env where
  root_url : List Char
  max_pages : Nat
  ocr_enabled : Bool
  max_file_size : Nat
  download_documents : Bool
  pageFetch : List Char → Option PageResp
  imgFetch : List Char → Option ImgResp
  pdfFetch : List Char → Option PdfResp
  dlFetch : List Char → Bool
  ocr : List Char → Except Unit (List Char)

/-! ## OCR (`extract_text_from_image`) -/

/-- `os.path.join('temp_images', os.path.basename(img_url))`. -/
def tempPathOf (img_url : List Char) : List Char :=
  "temp_images/".data ++ lastSegment img_url

/-- `CompleteWebsiteScraper.extract_text_from_image`, acting on the set of
files currently present under `temp_images`.  `env.ocr` models
`Image.open` + `pytesseract.image_to_string` on the temporary file; when it
raises, the `except` at line 122 returns the placeholder — and the
`os.remove` at line 118 is never reached. -/
def extract_text_from_image (env : Env) (tempFiles : Finset (List Char))
    (img_url : List Char) : Finset (List Char) × List Char :=
  if !env.ocr_enabled then (tempFiles, "OCR отключен".data)
  else
    match env.imgFetch img_url with
    | none => (tempFiles, "Ошибка обработки изображения".data)
    | some resp =>
      if env.max_file_size < resp.contentLength then
        (tempFiles, "Изображение слишком большое".data)
      else if !containsSeq resp.contentType "image".data then
        (tempFiles, "URL не ведет на изображение".data)
      else
        let temp_img_path := tempPathOf img_url
        let written := insert temp_img_path tempFiles
        match env.ocr temp_img_path with
        | .error _ => (written, "Ошибка обработки изображения".data)
        | .ok text =>
          let removed := written.erase temp_img_path
          (removed,
           if !(pyStrip text).isEmpty then clean_text text
           else "Не удалось распознать текст".data)

/-- A concrete environment in which the image fetch succeeds and OCR
raises. -/
def envOcrRaises : Env where
  root_url := "http://example.com".data
  max_pages := 20
  ocr_enabled := true
  max_file_size := 10485760
  download_documents := true
  pageFetch := fun _ => none
  imgFetch := fun _ => some ⟨0, "image/png".data⟩
  pdfFetch := fun _ => none
  dlFetch := fun _ => false
  ocr := fun _ => .error ()

def envOcrReturns : Env where
  root_url := "http://example.com".data
  max_pages := 20
  ocr_enabled := true
  max_file_size := 10485760
  download_documents := true
  pageFetch := fun _ => none
  imgFetch := fun _ => some ⟨0, "image/png".data⟩
  pdfFetch := fun _ => none
  dlFetch := fun _ => false
  ocr := fun _ => .ok "привет мир".data

/-! ## Crawler state and per-page processing (`scrape_page` and helpers) -/

mutual
/-- `soup.find_all('a', href=True)`: the `href` values of all `a` elements
carrying one, in document order. -/
def findAnchorsNode (n : Node) : List (List Char) :=
  match n with
  | .text _ => []
  | .elem tag attrs children =>
    (if tag = "a" then
      match attrs.lookup "href" with
      | some v => [v]
      | none => []
     else []) ++ findAnchorsForest children

def findAnchorsForest (l : NodeList) : List (List Char) :=
  match l with
  | .nil => []
  | .cons n rest => findAnchorsNode n ++ findAnchorsForest rest
end

mutual
/-- `soup.find_all('img', src=True)`: for each `img` element with a `src`,
its `src` and its `alt` (defaulting to the empty string), in document
order. -/
def findImgsNode (n : Node) : List (List Char × List Char) :=
  match n with
  | .text _ => []
  | .elem tag attrs children =>
    (if tag = "img" then
      match attrs.lookup "src" with
      | some v => [(v, ((attrs.lookup "alt").getD []))]
      | none => []
     else []) ++ findImgsForest children

def findImgsForest (l : NodeList) : List (List Char × List Char) :=
  match l with
  | .nil => []
  | .cons n rest => findImgsNode n ++ findImgsForest rest
end

/-- One entry of a page's `images` list. -/
structure ImgText where
  url : List Char
  alt_text : List Char
  ocr_text : List Char

deriving DecidableEq

/-- One entry of a page's `files_content` list. -/
structure FileContent where
  ftype : List Char
  url : List Char
  content : List Char
  local_path : Option (List Char)

deriving DecidableEq

/-- The dictionary appended to `self.data` for each recorded page.
(The `metadata` field is omitted: it is pure tag lookup not referenced by
any verified property.) -/
structure PageRecord where
  url : List Char
  text : List Char
  images : List ImgText
  links : Links
  files_content : List FileContent

deriving DecidableEq

/-- The scraper's mutable state: `visited_urls` and `data`, plus the
filesystem directories it writes (`temp_images`, `downloaded_documents`)
and a log of the page URLs passed to `session.get` (one entry per fetch
issued, used to state the at-most-once-fetch property). -/
structure ScrapeState where
  visited_urls : Finset (List Char)
  fetchLog : List (List Char)
  tempFiles : Finset (List Char)
  downloads : List (List Char)
  data : List PageRecord

deriving DecidableEq

def initialState : ScrapeState := ⟨∅, [], ∅, [], []⟩

/-- `CompleteWebsiteScraper.download_file`: on success the file
`downloaded_documents/document_{len(visited_urls)}_{ext}.{ext}` is written
and its name returned; on any exception, `None`. -/
def download_file (env : Env) (st : ScrapeState) (url : List Char)
    (file_type : List Char) : ScrapeState × Option (List Char) :=
  if env.dlFetch url then
    let filename := "downloaded_documents/document_".data ++
      (toString st.visited_urls.card).data ++ '_' :: file_type ++ '.' :: file_type
    ({ st with downloads := st.downloads ++ [filename] }, some filename)
  else (st, none)

/-- The name `pdf_extract_text` called at parses.py line 281 is never
imported or defined anywhere in the module; in Python, evaluating an
unbound name raises `NameError` unconditionally. -/
def pdf_extract_text : Except Unit (List Char) := Except.error ()

/-- The `{'text': ..., 'local_path': ...}` dictionary returned by
`extract_from_pdf`. -/
structure PdfResult where
  text : Option (List Char)
  local_path : Option (List Char)

deriving DecidableEq

/-- `CompleteWebsiteScraper.extract_from_pdf`: fetch, size-cap check,
optional download, then `pdf_extract_text` — whose `NameError` is caught by
the `except`, yielding `{'text': None, 'local_path': None}`. -/
def extract_from_pdf (env : Env) (st : ScrapeState) (pdf_url : List Char) :
    ScrapeState × PdfResult :=
  match env.pdfFetch pdf_url with
  | none => (st, ⟨none, none⟩)
  | some resp =>
    if env.max_file_size < resp.contentLength then (st, ⟨none, none⟩)
    else
      let dl := if env.download_documents then download_file env st pdf_url "pdf".data
        else (st, none)
      match pdf_extract_text with
      | .ok text => (dl.1, ⟨some (clean_text text), dl.2⟩)
      | .error _ => (dl.1, ⟨none, none⟩)

/-- The truncation applied at parses.py line 238:
`result['text'][:10000] + "..." if len(result['text']) > 10000 else
result['text']`. -/
def truncateContent (t : List Char) : List Char :=
  if 10000 < t.length then t.take 10000 ++ "...".data else t

/-- The PDF loop of `scrape_page` (lines 231-240): for each of the first
three classified PDF links, run `extract_from_pdf`; entries whose text is
truthy (non-`None` and nonempty) are appended, truncated. -/
def processPdfLinks (env : Env) : ScrapeState → List (List Char) →
    ScrapeState × List FileContent
  | st, [] => (st, [])
  | st, pdf_url :: rest =>
    let step := extract_from_pdf env st pdf_url
    let tail := processPdfLinks env step.1 rest
    match step.2.text with
    | some t =>
      if !t.isEmpty then
        (tail.1, ⟨"PDF".data, pdf_url, truncateContent t, step.2.local_path⟩ :: tail.2)
      else (tail.1, tail.2)
    | none => (tail.1, tail.2)

/-- The image extensions OCR is attempted on (line 217). -/
def ocrExts : List (List Char) := [".jpg".data, ".jpeg".data, ".png".data]

/-- The OCR loop of `scrape_page` (lines 213-224): for each `img` with a
`src`, resolve it, and if it ends in an OCR-able extension run
`extract_text_from_image`; truthy results are recorded with the `alt`
text. -/
def processImgs (env : Env) (page_url : List Char) :
    Finset (List Char) → List (List Char × List Char) →
    Finset (List Char) × List ImgText
  | tempFiles, [] => (tempFiles, [])
  | tempFiles, (src, alt) :: rest =>
    let img_url := urljoin page_url src
    if ocrExts.any (fun ext => endsWithL (toLowerL img_url) ext) then
      let step := extract_text_from_image env tempFiles img_url
      let tail := processImgs env page_url step.1 rest
      if !step.2.isEmpty then (tail.1, ⟨img_url, alt, step.2⟩ :: tail.2)
      else (tail.1, tail.2)
    else processImgs env page_url tempFiles rest

/-- Lines 193 and 196: mark the URL visited (pre-fetch), then issue the
fetch (recorded in the fetch log). -/
def markVisited (st : ScrapeState) (url : List Char) : ScrapeState :=
  { st with visited_urls := insert url st.visited_urls,
            fetchLog := st.fetchLog ++ [url] }

/-- The body of `scrape_page` once the page response is in hand (lines
199-257): content-type check, decompose, visible text, OCR, link
classification, PDF loop, record append.  Returns the new state and the
internal links to recurse into (`list(links['internal'])[:5]`). -/
def scrape_body (env : Env) (st : ScrapeState) (url : List Char)
    (resp : PageResp) : ScrapeState × List (List Char) :=
  if !containsSeq resp.contentType "text/html".data then (st, [])
  else
    let soup := decomposeForest resp.doc
    let text := joinNl ((splitNl (get_text_nl soup)).filter
      fun line => !(pyStrip line).isEmpty)
    let imgRes := if env.ocr_enabled then
        processImgs env url st.tempFiles (findImgsForest soup)
      else (st.tempFiles, [])
    let links := extract_links env.root_url url (findAnchorsForest soup)
    let stImg := { st with tempFiles := imgRes.1 }
    let pdfRes := processPdfLinks env stImg (links.files_pdf.take 3)
    let record : PageRecord :=
      { url := url, text := text, images := imgRes.2, links := links,
        files_content := pdfRes.2 }
    ({ pdfRes.1 with data := pdfRes.1.data ++ [record] }, links.internal.take 5)

/-- `CompleteWebsiteScraper.scrape_page`, with an explicit fuel parameter
bounding the recursion depth (the Python recursion is unbounded; every
theorem below holds for every fuel value). -/
def scrape_page (env : Env) : Nat → ScrapeState → List Char → ScrapeState
  | 0, st, _ => st
  | fuel + 1, st, url =>
    if url ∈ st.visited_urls ∨ env.max_pages ≤ st.visited_urls.card then st
    else
      let st1 := markVisited st url
      match env.pageFetch url with
      | none => st1
      | some resp =>
        let body := scrape_body env st1 url resp
        body.2.foldl (fun s l => scrape_page env fuel s l) body.1

/-- `CompleteWebsiteScraper.run` (with fuel): crawl from the root URL
starting from fresh state. -/
def runScraper (env : Env) (fuel : Nat) : ScrapeState :=
  scrape_page env fuel initialState env.root_url

def envCapZero : Env := { envOcrRaises with max_pages := 0 }

def stVisited : ScrapeState :=
  { initialState with visited_urls := {"http://example.com".data} }

def envPdfDl : Env :=
  { envOcrRaises with pdfFetch := fun _ => some ⟨100⟩, dlFetch := fun _ => true }

/-! ## Answer Engine (`main.py`: `call_llm`, `answer_questions`,
`save_answers`) -/

deriving instance DecidableEq for Except

/-- The language-model completion endpoint: `Except.error` models the call
raising. -/
structure LlmEnv where
  complete : List Char → Except Unit (List Char)

/-- `call_llm`: on success, the completion content stripped; on any
exception, the handler prints and falls off the end of the function —
Python then implicitly returns `None`. -/
def call_llm (env : LlmEnv) (prompt : List Char) : Option (List Char) :=
  match env.complete prompt with
  | .ok content => some (pyStrip content)
  | .error _ => none

/-- The per-question prompt built by `answer_questions`. -/
def promptFor (summary question : List Char) : List Char :=
  "На основе следующего текста:\n".data ++ summary ++ "\n\n".data ++
  "Ответь точно на вопрос: ".data ++ question ++ "\n".data ++
  "Если информации нет, напиши 'Информация не найдена'".data

/-- `summarize_text`: a hard character cut (no sentence awareness); the
caller passes 40000. -/
def summarize_text (text : List Char) (max_length : Nat) : List Char :=
  text.take max_length

/-- `answer_questions`: one completion per question, collecting
`(question, answer)` pairs in question order — the pair is appended even
when `call_llm` returned `None`. -/
def answer_questions (env : LlmEnv) (summary : List Char)
    (questions : List (List Char)) : List (List Char × Option (List Char)) :=
  questions.map fun question => (question, call_llm env (promptFor summary question))

/-- `"-" * 80`. -/
def dashLine : List Char := List.replicate 80 '-'

/-- How Python's f-string renders the answer: `str(None)` is `"None"`. -/
def renderAnswer : Option (List Char) → List Char
  | some a => a
  | none => "None".data

/-- One `save_answers` block:
`f"Вопрос: {q}\n"`, `f"Ответ: {a}\n"`, `"-" * 80 + "\n\n"`. -/
def answerBlock (qa : List Char × Option (List Char)) : List Char :=
  "Вопрос: ".data ++ qa.1 ++ '\n' :: "Ответ: ".data ++ renderAnswer qa.2 ++
    '\n' :: dashLine ++ "\n\n".data

/-- `save_answers`: the full contents written to `answers.txt`, blocks in
list order. -/
def save_answers (answers : List (List Char × Option (List Char))) :
    List Char :=
  (answers.map answerBlock).flatten

def qs5 : List (List Char) :=
  ["q1".data, "q2".data, "q3".data, "q4".data, "q5".data]

/-- An endpoint that raises exactly on the third question's prompt. -/
def llmFailsOn3 : LlmEnv :=
  ⟨fun prompt => if prompt = promptFor "текст".data "q3".data then .error ()
    else .ok " ответ ".data⟩

/-! ## Theorems -/

/-! ### Lemmas: shape of `clean_text` outputs -/

theorem noPair_tail {bad : Char → Char → Bool} {c : Char} {s : List Char}
    (h : noPair bad (c :: s) = true) : noPair bad s = true := by
  cases s with
  | nil => rfl
  | cons d rest => exact ((Bool.and_eq_true _ _).mp h).2

theorem noPair_cons {bad : Char → Char → Bool} {c : Char} {s : List Char}
    (hs : noPair bad s = true)
    (hc : ∀ d rest, s = d :: rest → bad c d = false) :
    noPair bad (c :: s) = true := by
  cases s with
  | nil => rfl
  | cons d rest =>
    show (!bad c d && noPair bad (d :: rest)) = true
    rw [hc d rest rfl, hs]
    rfl

theorem noPair_head {bad : Char → Char → Bool} {c d : Char} {s : List Char}
    (h : noPair bad (c :: d :: s) = true) : bad c d = false := by
  have h1 := ((Bool.and_eq_true _ _).mp h).1
  simpa using h1

theorem sublist_all {p : Char → Bool} {s t : List Char}
    (hsub : List.Sublist s t) (h : t.all p = true) : s.all p = true := by
  rw [List.all_eq_true] at h ⊢
  exact fun c hc => h c (hsub.subset hc)

theorem noPair_dropWhile {bad : Char → Char → Bool} {p : Char → Bool}
    {s : List Char} (h : noPair bad s = true) :
    noPair bad (s.dropWhile p) = true := by
  induction s with
  | nil => exact h
  | cons c rest ih =>
    rw [List.dropWhile_cons]
    by_cases hp : p c = true
    · simp only [hp, if_true]
      exact ih (noPair_tail h)
    · rw [Bool.not_eq_true] at hp
      simp only [hp, Bool.false_eq_true, if_false]
      exact h

theorem headIsSpace_dropWhile (s : List Char) :
    headIsSpace (s.dropWhile isSpaceChar) = false := by
  induction s with
  | nil => rfl
  | cons c rest ih =>
    rw [List.dropWhile_cons]
    by_cases hc : isSpaceChar c = true
    · simp only [hc, if_true]
      exact ih
    · rw [Bool.not_eq_true] at hc
      simp only [hc, Bool.false_eq_true, if_false, headIsSpace]

theorem lastNotSpace_dropWhile {p : Char → Bool} {s : List Char}
    (h : lastNotSpace s = true) : lastNotSpace (s.dropWhile p) = true := by
  induction s with
  | nil => exact h
  | cons c rest ih =>
    rw [List.dropWhile_cons]
    by_cases hp : p c = true
    · simp only [hp, if_true]
      apply ih
      cases rest with
      | nil => rfl
      | cons d r => exact h
    · rw [Bool.not_eq_true] at hp
      simp only [hp, Bool.false_eq_true, if_false]
      exact h

/-! Whitespace collapse produces isolated plain spaces. -/

theorem headIsSpace_collapseAux_true (s : List Char) :
    headIsSpace (collapseAux true s) = false := by
  induction s with
  | nil => rfl
  | cons c rest ih =>
    by_cases hc : isSpaceChar c = true
    · simp only [collapseAux, hc, if_true]
      exact ih
    · rw [Bool.not_eq_true] at hc
      simp only [collapseAux, hc, Bool.false_eq_true, if_false, headIsSpace]

theorem noBadWs_collapseAux (b : Bool) (s : List Char) :
    noBadWs (collapseAux b s) = true := by
  induction s generalizing b with
  | nil => rfl
  | cons c rest ih =>
    by_cases hc : isSpaceChar c = true
    · cases b with
      | true =>
        simp only [collapseAux, hc, if_true]
        exact ih true
      | false =>
        simp only [collapseAux, hc, if_true, Bool.false_eq_true, if_false]
        have h2 := ih true
        simp only [noBadWs, List.all_cons] at h2 ⊢
        rw [h2]
        simp
    · rw [Bool.not_eq_true] at hc
      simp only [collapseAux, hc, Bool.false_eq_true, if_false]
      have h2 := ih false
      simp only [noBadWs, List.all_cons] at h2 ⊢
      rw [h2, hc]
      simp

theorem noDoubleSpace_collapseAux (b : Bool) (s : List Char) :
    noDoubleSpace (collapseAux b s) = true := by
  induction s generalizing b with
  | nil => rfl
  | cons c rest ih =>
    by_cases hc : isSpaceChar c = true
    · cases b with
      | true =>
        simp only [collapseAux, hc, if_true]
        exact ih true
      | false =>
        simp only [collapseAux, hc, if_true, Bool.false_eq_true, if_false]
        apply noPair_cons (ih true)
        intro d rest2 hEq
        have hhead := headIsSpace_collapseAux_true rest
        rw [hEq] at hhead
        simp only [headIsSpace] at hhead
        rw [hhead]
        simp
    · rw [Bool.not_eq_true] at hc
      simp only [collapseAux, hc, Bool.false_eq_true, if_false]
      apply noPair_cons (ih false)
      intro d rest2 hEq
      rw [hc]
      simp

theorem allAllowed_collapseAux (b : Bool) {s : List Char}
    (h : s.all isAllowedChar = true) :
    (collapseAux b s).all isAllowedChar = true := by
  induction s generalizing b with
  | nil => rfl
  | cons c rest ih =>
    rw [List.all_cons, Bool.and_eq_true] at h
    by_cases hc : isSpaceChar c = true
    · cases b with
      | true =>
        simp only [collapseAux, hc, if_true]
        exact ih true h.2
      | false =>
        simp only [collapseAux, hc, if_true, Bool.false_eq_true, if_false,
          List.all_cons, ih true h.2, Bool.and_true]
        decide
    · rw [Bool.not_eq_true] at hc
      simp only [collapseAux, hc, Bool.false_eq_true, if_false,
        List.all_cons, ih false h.2, Bool.and_true]
      exact h.1

/-! Hyphen-whitespace removal: output shape. -/

theorem rhwAux_sublist (b : Bool) (s : List Char) :
    List.Sublist (rhwAux b s) s := by
  induction s generalizing b with
  | nil => exact List.Sublist.refl _
  | cons c rest ih =>
    by_cases h1 : (b && isSpaceChar c) = true
    · simp only [rhwAux, h1, if_true]
      exact (ih true).cons c
    · rw [Bool.not_eq_true] at h1
      simp only [rhwAux, h1, Bool.false_eq_true, if_false]
      by_cases h2 : (c = '-' && headIsSpace rest) = true
      · simp only [h2, if_true]
        exact (ih true).cons c
      · rw [Bool.not_eq_true] at h2
        simp only [h2, Bool.false_eq_true, if_false]
        exact (ih false).cons₂ c

theorem headIsSpace_rhwAux_true (s : List Char) :
    headIsSpace (rhwAux true s) = false := by
  induction s with
  | nil => rfl
  | cons c rest ih =>
    by_cases hc : isSpaceChar c = true
    · simp only [rhwAux, hc, Bool.and_true, if_true]
      exact ih
    · rw [Bool.not_eq_true] at hc
      simp only [rhwAux, hc, Bool.and_false, Bool.false_eq_true, if_false]
      by_cases h2 : (c = '-' && headIsSpace rest) = true
      · simp only [h2, if_true]
        exact ih
      · rw [Bool.not_eq_true] at h2
        simp only [h2, Bool.false_eq_true, if_false]
        simp only [headIsSpace]
        exact hc

theorem headIsSpace_rhwAux_false {s : List Char}
    (h : headIsSpace (rhwAux false s) = true) : headIsSpace s = true := by
  cases s with
  | nil => exact h
  | cons c rest =>
    by_cases h2 : (c = '-' && headIsSpace rest) = true
    · rw [show rhwAux false (c :: rest) = rhwAux true rest by
        simp only [rhwAux, Bool.false_and, Bool.false_eq_true, if_false, h2, if_true]] at h
      rw [headIsSpace_rhwAux_true rest] at h
      exact absurd h (by decide)
    · rw [Bool.not_eq_true] at h2
      rw [show rhwAux false (c :: rest) = c :: rhwAux false rest by
        simp only [rhwAux, Bool.false_and, Bool.false_eq_true, if_false, h2]] at h
      exact h

theorem noDoubleSpace_rhwAux (b : Bool) {s : List Char}
    (h : noDoubleSpace s = true) : noDoubleSpace (rhwAux b s) = true := by
  induction s generalizing b with
  | nil => exact h
  | cons c rest ih =>
    by_cases h1 : (b && isSpaceChar c) = true
    · simp only [rhwAux, h1, if_true]
      exact ih true (noPair_tail h)
    · rw [Bool.not_eq_true] at h1
      simp only [rhwAux, h1, Bool.false_eq_true, if_false]
      by_cases h2 : (c = '-' && headIsSpace rest) = true
      · simp only [h2, if_true]
        exact ih true (noPair_tail h)
      · rw [Bool.not_eq_true] at h2
        simp only [h2, Bool.false_eq_true, if_false]
        apply noPair_cons (ih false (noPair_tail h))
        intro d rest2 hEq
        by_cases hc : isSpaceChar c = true
        · have hd : isSpaceChar d = false := by
            by_contra hd
            rw [Bool.not_eq_false] at hd
            have hds : headIsSpace (rhwAux false rest) = true := by
              rw [hEq]
              exact hd
            have hrest := headIsSpace_rhwAux_false hds
            cases rest with
            | nil => exact absurd hrest (by decide)
            | cons e r =>
              have hpair := noPair_head h
              simp only [headIsSpace] at hrest
              rw [hc, hrest] at hpair
              exact absurd hpair (by decide)
          rw [hd]
          simp
        · rw [Bool.not_eq_true] at hc
          rw [hc]
          simp

theorem noHyphenSpace_rhwAux (b : Bool) (s : List Char) :
    noHyphenSpace (rhwAux b s) = true := by
  induction s generalizing b with
  | nil => rfl
  | cons c rest ih =>
    by_cases h1 : (b && isSpaceChar c) = true
    · simp only [rhwAux, h1, if_true]
      exact ih true
    · rw [Bool.not_eq_true] at h1
      simp only [rhwAux, h1, Bool.false_eq_true, if_false]
      by_cases h2 : (c = '-' && headIsSpace rest) = true
      · simp only [h2, if_true]
        exact ih true
      · rw [Bool.not_eq_true] at h2
        simp only [h2, Bool.false_eq_true, if_false]
        apply noPair_cons (ih false)
        intro d rest2 hEq
        by_cases hc : c = '-'
        · have hrest : headIsSpace rest = false := by
            rw [Bool.and_eq_false_iff] at h2
            rcases h2 with h2 | h2
            · rw [decide_eq_false_iff_not] at h2
              exact absurd hc h2
            · exact h2
          have hd : isSpaceChar d = false := by
            by_contra hd
            rw [Bool.not_eq_false] at hd
            have hds : headIsSpace (rhwAux false rest) = true := by
              rw [hEq]
              exact hd
            rw [headIsSpace_rhwAux_false hds] at hrest
            exact absurd hrest (by decide)
          rw [hd]
          simp
        · simp [hc]

/-! stripTrailing: output shape. -/

theorem stripTrailing_sublist (s : List Char) :
    List.Sublist (stripTrailing s) s := by
  induction s with
  | nil => exact List.Sublist.refl _
  | cons c rest ih =>
    simp only [stripTrailing]
    cases hr : stripTrailing rest with
    | nil =>
      by_cases hc : isSpaceChar c = true
      · simp only [hc, if_true]
        exact List.nil_sublist _
      · rw [Bool.not_eq_true] at hc
        simp only [hc, Bool.false_eq_true, if_false]
        exact (List.nil_sublist rest).cons₂ c
    | cons d r =>
      show (c :: (d :: r)).Sublist (c :: rest)
      rw [← hr]
      exact ih.cons₂ c

theorem stripTrailing_head {c : Char} {rest r : List Char}
    (h : stripTrailing (c :: rest) = r) (hne : r ≠ []) :
    ∃ r2, r = c :: r2 := by
  rw [stripTrailing] at h
  revert h
  cases hr : stripTrailing rest with
  | nil =>
    by_cases hc : isSpaceChar c = true
    · simp only [hc, if_true]
      intro h
      exact absurd h.symm hne
    · rw [Bool.not_eq_true] at hc
      simp only [hc, Bool.false_eq_true, if_false]
      intro h
      exact ⟨[], h.symm⟩
  | cons d r2 =>
    intro h
    exact ⟨d :: r2, h.symm⟩

theorem noPair_stripTrailing {bad : Char → Char → Bool} {s : List Char}
    (h : noPair bad s = true) : noPair bad (stripTrailing s) = true := by
  induction s with
  | nil => exact h
  | cons c rest ih =>
    simp only [stripTrailing]
    cases hr : stripTrailing rest with
    | nil =>
      by_cases hc : isSpaceChar c = true
      · simp only [hc, if_true]
        rfl
      · rw [Bool.not_eq_true] at hc
        simp only [hc, Bool.false_eq_true, if_false]
        rfl
    | cons d r2 =>
      apply noPair_cons
      · rw [← hr]
        exact ih (noPair_tail h)
      · intro e rest2 hEq
        have he : d = e := ((List.cons.injEq _ _ _ _).mp hEq).1
        cases rest with
        | nil => exact absurd hr (by intro hx; exact List.noConfusion hx)
        | cons f r3 =>
          obtain ⟨r4, hr4⟩ := stripTrailing_head hr (by intro hx; exact List.noConfusion hx)
          have hf : d = f := ((List.cons.injEq _ _ _ _).mp hr4).1
          rw [← he, hf]
          exact noPair_head h

theorem headIsSpace_stripTrailing {s : List Char}
    (h : headIsSpace s = false) : headIsSpace (stripTrailing s) = false := by
  cases s with
  | nil => exact h
  | cons c rest =>
    simp only [stripTrailing]
    cases hr : stripTrailing rest with
    | nil =>
      by_cases hc : isSpaceChar c = true
      · simp only [hc, if_true]
        rfl
      · rw [Bool.not_eq_true] at hc
        simp only [hc, Bool.false_eq_true, if_false, headIsSpace]
    | cons d r2 =>
      exact h

theorem lastNotSpace_stripTrailing (s : List Char) :
    lastNotSpace (stripTrailing s) = true := by
  induction s with
  | nil => rfl
  | cons c rest ih =>
    simp only [stripTrailing]
    cases hr : stripTrailing rest with
    | nil =>
      by_cases hc : isSpaceChar c = true
      · simp only [hc, if_true]
        rfl
      · rw [Bool.not_eq_true] at hc
        simp only [hc, Bool.false_eq_true, if_false, lastNotSpace]
        rfl
    | cons d r2 =>
      rw [hr] at ih
      cases r2 with
      | nil => exact ih
      | cons e r3 => exact ih

/-! Each pass fixes strings already in its normal form. -/

theorem removeDisallowed_id {s : List Char} (h : s.all isAllowedChar = true) :
    removeDisallowed s = s := by
  rw [removeDisallowed, List.filter_eq_self]
  rw [List.all_eq_true] at h
  exact h

theorem collapseAux_id {s : List Char} (b : Bool) (h1 : noBadWs s = true)
    (h2 : noDoubleSpace s = true) (h3 : b = true → headIsSpace s = false) :
    collapseAux b s = s := by
  induction s generalizing b with
  | nil => rfl
  | cons c rest ih =>
    by_cases hc : isSpaceChar c = true
    · have hb : b = false := by
        cases b with
        | false => rfl
        | true =>
          have := h3 rfl
          simp only [headIsSpace, hc] at this
          exact this
      subst hb
      have hsp : c = ' ' := by
        have := h1
        simp only [noBadWs, List.all_cons, Bool.and_eq_true] at this
        have h4 := this.1
        rw [hc] at h4
        simpa using h4
      have hrest : headIsSpace rest = false := by
        cases rest with
        | nil => rfl
        | cons d r =>
          have hp := noPair_head h2
          rw [hc] at hp
          simpa using hp
      simp only [collapseAux, hc, if_true, Bool.false_eq_true, if_false]
      rw [← hsp]
      rw [ih true (sublist_all (List.sublist_cons_self c rest) h1) (noPair_tail h2)
        (fun _ => hrest)]
    · rw [Bool.not_eq_true] at hc
      simp only [collapseAux, hc, Bool.false_eq_true, if_false]
      rw [ih false (sublist_all (List.sublist_cons_self c rest) h1) (noPair_tail h2)
        (fun hx => absurd hx (by decide))]

theorem rhwAux_false_id {s : List Char} (h : noHyphenSpace s = true) :
    rhwAux false s = s := by
  induction s with
  | nil => rfl
  | cons c rest ih =>
    have h2 : (c = '-' && headIsSpace rest) = false := by
      cases rest with
      | nil => simp [headIsSpace]
      | cons d r =>
        have hp := noPair_head h
        simp only [headIsSpace]
        by_cases hc : c = '-'
        · rw [hc] at hp ⊢
          simpa using hp
        · simp [hc]
    simp only [rhwAux, Bool.false_and, Bool.false_eq_true, if_false, h2]
    rw [ih (noPair_tail h)]

theorem dropWhile_id {s : List Char} (h : headIsSpace s = false) :
    s.dropWhile isSpaceChar = s := by
  cases s with
  | nil => rfl
  | cons c rest =>
    simp only [headIsSpace] at h
    rw [List.dropWhile_cons]
    simp only [h, Bool.false_eq_true, if_false]

theorem stripTrailing_id {s : List Char} (h : lastNotSpace s = true) :
    stripTrailing s = s := by
  induction s with
  | nil => rfl
  | cons c rest ih =>
    cases rest with
    | nil =>
      simp only [lastNotSpace] at h
      simp only [stripTrailing]
      rw [Bool.not_eq_true' ] at h
      simp only [h, Bool.false_eq_true, if_false]
    | cons d r =>
      have hrest := ih h
      have hunfold : stripTrailing (c :: d :: r) =
          (match stripTrailing (d :: r) with
            | [] => if isSpaceChar c then [] else [c]
            | r2 => c :: r2) := rfl
      rw [hunfold, hrest]

theorem all_removeDisallowed (s : List Char) :
    (removeDisallowed s).all isAllowedChar = true := by
  rw [List.all_eq_true]
  intro a ha
  exact (List.mem_filter.mp ha).2

/-- C6: The Text Normalizer is idempotent: for every input string `x`,
`clean_text (clean_text x) = clean_text x`, where `clean_text` removes
characters outside the allowed class, collapses whitespace runs to a single
space, deletes any `'-'` followed by whitespace, and strips leading and
trailing whitespace. -/
theorem clean_text_idempotent (s : List Char) :
    clean_text (clean_text s) = clean_text s := by
  set z2 := collapseWs (removeDisallowed s) with hz2def
  set z3 := removeHyphenWs z2 with hz3def
  set z4 := z3.dropWhile isSpaceChar with hz4def
  set y := stripTrailing z4 with hydef
  -- properties of the normal form y
  have hA : y.all isAllowedChar = true := by
    apply sublist_all (stripTrailing_sublist z4)
    apply sublist_all (List.dropWhile_sublist _)
    apply sublist_all (rhwAux_sublist false z2)
    exact allAllowed_collapseAux false (all_removeDisallowed s)
  have hB : noBadWs y = true := by
    simp only [noBadWs]
    apply sublist_all (stripTrailing_sublist z4)
    apply sublist_all (List.dropWhile_sublist _)
    apply sublist_all (rhwAux_sublist false z2)
    have := noBadWs_collapseAux false (removeDisallowed s)
    simpa only [noBadWs] using this
  have hC : noDoubleSpace y = true := by
    simp only [noDoubleSpace]
    apply noPair_stripTrailing
    apply noPair_dropWhile
    have := noDoubleSpace_rhwAux false (noDoubleSpace_collapseAux false (removeDisallowed s))
    simpa only [noDoubleSpace] using this
  have hD : noHyphenSpace y = true := by
    simp only [noHyphenSpace]
    apply noPair_stripTrailing
    apply noPair_dropWhile
    have := noHyphenSpace_rhwAux false z2
    simpa only [noHyphenSpace] using this
  have hE : headIsSpace y = false := by
    apply headIsSpace_stripTrailing
    exact headIsSpace_dropWhile z3
  have hF : lastNotSpace y = true := lastNotSpace_stripTrailing z4
  -- each pass fixes y
  show clean_text y = y
  unfold clean_text pyStrip collapseWs removeHyphenWs
  rw [removeDisallowed_id hA]
  rw [collapseAux_id false hB hC (fun hx => absurd hx (by decide))]
  rw [rhwAux_false_id hD]
  rw [dropWhile_id hE]
  exact stripTrailing_id hF

example : urljoin "http://example.com/a/b".data "c.pdf".data =
    "http://example.com/a/c.pdf".data := by decide

example : urljoin "http://example.com/a/b".data "/about".data =
    "http://example.com/about".data := by decide

example : urljoin "http://example.com/page".data "https://other.example/x".data =
    "https://other.example/x".data := by decide

example : urljoin "http://example.com/page".data "mailto:a@b".data =
    "mailto:a@b".data := by decide

example : netlocOf "mailto:a@b".data = [] := by decide

example : netlocOf "http://example.com/a".data = "example.com".data := by decide

example :
    classifyLink "http://example.com".data "http://example.com/p".data
      "/about".data = Bucket.internal := by decide

example :
    classifyLink "http://example.com".data "http://example.com/p".data
      "https://other.example/x".data = Bucket.external := by decide

example :
    classifyLink "http://example.com".data "http://example.com/p".data
      "/doc.pdf".data = Bucket.files_pdf := by decide

example :
    classifyLink "http://example.com".data "http://example.com/p".data
      "/pic.jpg".data = Bucket.files_images := by decide

example :
    classifyLink "http://example.com".data "http://example.com/p".data
      "/style.css".data = Bucket.files_other := by decide

/-- C3: The Link Classifier is a total function: for every anchor `href` on a
page, processing it with `extract_links`'s loop body adds the resolved
absolute URL to exactly one of the five buckets — the one computed by the
(deterministic) function `classifyLink` — and leaves the other four buckets
unchanged. -/
theorem link_classifier_total (root_url base : List Char) (links : Links)
    (href : List Char) :
    ∃ b : Bucket, b = classifyLink root_url base href ∧
      ∀ b2 : Bucket,
        getBucket b2 (addLink root_url base links href) =
          if b2 = b then setAdd (urljoin base href) (getBucket b2 links)
          else getBucket b2 links := by
  refine ⟨classifyLink root_url base href, rfl, fun b2 => ?_⟩
  simp only [classifyLink, addLink]
  by_cases h1 : (!is_valid_url root_url (urljoin base href)) = true
  · simp only [h1, if_true]
    cases b2 <;> simp [getBucket]
  · rw [Bool.not_eq_true] at h1
    simp only [h1, Bool.false_eq_true, if_false]
    by_cases h2 : endsWithL (toLowerL href) ".pdf".data = true
    · simp only [h2, if_true]
      cases b2 <;> simp [getBucket]
    · rw [Bool.not_eq_true] at h2
      simp only [h2, Bool.false_eq_true, if_false]
      by_cases h3 : (imageExts.any fun ext => endsWithL (toLowerL href) ext) = true
      · simp only [h3, if_true]
        cases b2 <;> simp [getBucket]
      · rw [Bool.not_eq_true] at h3
        simp only [h3, Bool.false_eq_true, if_false]
        by_cases h4 : (lastSegment href).contains '.' = true
        · simp only [h4, if_true]
          cases b2 <;> simp [getBucket]
        · rw [Bool.not_eq_true] at h4
          simp only [h4, Bool.false_eq_true, if_false]
          cases b2 <;> simp [getBucket]

/-- C4 counterexample: the malformed reference `mailto:a@b` resolves to a URL
with no netloc, yet `extract_links` does not exclude it — it lands in the
`external` bucket. -/
theorem malformed_url_lands_in_external :
    netlocOf (urljoin "http://example.com/page".data "mailto:a@b".data) = [] ∧
    "mailto:a@b".data ∈ (extract_links "http://example.com".data
      "http://example.com/page".data ["mailto:a@b".data]).external := by
  decide

/-- C4 (amended): URLs that fail the "has a network location" check
(resolved URL has no netloc) are not excluded: they fail `is_valid_url` and
are classified into the `external` bucket, with the other four buckets
unchanged; the classifier remains free of error conditions and has no side
effects beyond the returned buckets. -/
theorem malformed_url_classified_external (root_url base : List Char)
    (links : Links) (href : List Char)
    (h : netlocOf (urljoin base href) = []) :
    addLink root_url base links href =
      { links with external := setAdd (urljoin base href) links.external } := by
  unfold addLink
  have hv : is_valid_url root_url (urljoin base href) = false := by
    unfold is_valid_url
    rw [h]
    rfl
  simp [hv]

theorem malformed_url_classified_external_witness :
    netlocOf (urljoin "http://example.com/page".data "mailto:a@b".data) = [] ∧
    addLink "http://example.com".data "http://example.com/page".data
        emptyLinks "mailto:a@b".data =
      { emptyLinks with
          external := setAdd
            (urljoin "http://example.com/page".data "mailto:a@b".data)
            emptyLinks.external } :=
  ⟨by decide,
   malformed_url_classified_external "http://example.com".data
     "http://example.com/page".data emptyLinks "mailto:a@b".data (by decide)⟩

example :
    main_text (.cons (.elem "p" [] (.cons (.text "  a  ".data)
      (.cons (.elem "script" [] (.cons (.text "bad()".data) .nil)) .nil))) .nil) =
    "a".data := by decide

example :
    main_text (.cons (.text "x\n\ny z".data) .nil) = "x\ny z".data := by decide

mutual
theorem decompose_strings_node (n : Node) :
    (match decomposeNode n with
     | some n2 => stringsNode n2
     | none => ([] : List (List Char))) = visibleStringsNode n := by
  match n with
  | .text s => rfl
  | .elem tag attrs children =>
    by_cases h : tag ∈ forbiddenTags
    · simp [decomposeNode, visibleStringsNode, h]
    · simp only [decomposeNode, visibleStringsNode]
      rw [if_neg (by simpa using h), if_neg (by simpa using h)]
      show stringsForest (decomposeForest children) = visibleStringsForest children
      exact decompose_strings_forest children

theorem decompose_strings_forest (l : NodeList) :
    stringsForest (decomposeForest l) = visibleStringsForest l := by
  match l with
  | .nil => rfl
  | .cons n rest =>
    simp only [decomposeForest, visibleStringsForest]
    have hn := decompose_strings_node n
    cases hd : decomposeNode n with
    | some n2 =>
      rw [hd] at hn
      have hn2 : stringsNode n2 = visibleStringsNode n := hn
      simp only [stringsForest]
      rw [hn2, decompose_strings_forest rest]
    | none =>
      rw [hd] at hn
      have hn2 : ([] : List (List Char)) = visibleStringsNode n := hn
      rw [decompose_strings_forest rest, ← hn2]
      simp
end

theorem splitNl_ne_nil (s : List Char) : splitNl s ≠ [] := by
  cases s with
  | nil => simp [splitNl]
  | cons c rest =>
    simp only [splitNl]
    by_cases hc : c = '\n'
    · simp [hc]
    · simp only [hc, if_false]
      cases splitNl rest with
      | nil => simp
      | cons p ps => simp

theorem splitNl_append (a b : List Char) :
    splitNl (a ++ '\n' :: b) = splitNl a ++ splitNl b := by
  induction a with
  | nil => rfl
  | cons c rest ih =>
    by_cases hc : c = '\n'
    · subst hc
      show ([] : List Char) :: splitNl (rest ++ '\n' :: b) =
        (([] : List Char) :: splitNl rest) ++ splitNl b
      rw [ih]
      rfl
    · rw [List.cons_append]
      simp only [splitNl, if_neg hc, ih]
      cases hs : splitNl rest with
      | nil => exact absurd hs (splitNl_ne_nil rest)
      | cons p ps => rfl

theorem splitNl_joinNl (xs : List (List Char)) (h : xs ≠ []) :
    splitNl (joinNl xs) = (xs.map splitNl).flatten := by
  induction xs with
  | nil => exact absurd rfl h
  | cons x rest ih =>
    cases rest with
    | nil => simp [joinNl, List.map, List.flatten]
    | cons y rest2 =>
      have hjoin : joinNl (x :: y :: rest2) = x ++ '\n' :: joinNl (y :: rest2) := rfl
      rw [hjoin, splitNl_append, ih (by simp)]
      simp [List.map, List.flatten]

/-- C9 counterexample: for a document consisting of the single text node
`"  a  "`, the code's `main_text` strips the node (yielding `"a"`), whereas
the specification's formula — text nodes joined by newline with blank lines
removed — keeps it verbatim (yielding `"  a  "`). -/
theorem main_text_strips_text_nodes :
    main_text (.cons (.text "  a  ".data) .nil) = "a".data ∧
    claimVisibleText (.cons (.text "  a  ".data) .nil) = "  a  ".data ∧
    main_text (.cons (.text "  a  ".data) .nil) ≠
      claimVisibleText (.cons (.text "  a  ".data) .nil) := by
  refine ⟨by decide, by decide, by decide⟩

/-- C9 (amended): for every HTML document, `script`/`style`/`iframe`/
`noscript` subtrees are removed before text extraction and contribute
nothing to the visible text, and `main_text` equals: the remaining text
nodes in document order, each stripped of leading/trailing whitespace
(empty results dropped), split into lines, blank (whitespace-only) lines
removed, joined by newline. -/
theorem main_text_eq_amendedVisibleText (doc : NodeList) :
    main_text doc = amendedVisibleText doc := by
  unfold main_text amendedVisibleText get_text_nl
  rw [decompose_strings_forest]
  cases hA : ((visibleStringsForest doc).map pyStrip).filter
      (fun s => !s.isEmpty) with
  | nil => simp [joinNl, splitNl, pyStrip, stripTrailing]
  | cons x rest =>
    rw [splitNl_joinNl (x :: rest) (by simp)]

example : containsSeq "text/html; charset=utf-8".data "text/html".data = true := by decide

example : containsSeq "image/png".data "image".data = true := by decide

example : containsSeq "text/plain".data "text/html".data = false := by decide

/-- C5 counterexample: starting from an empty `temp_images` directory, when
`pytesseract` raises, the temporary image file is still present after
`extract_text_from_image` returns — it is not deleted. -/
theorem temp_image_kept_when_ocr_raises :
    tempPathOf "http://example.com/a.png".data ∈
      (extract_text_from_image envOcrRaises ∅ "http://example.com/a.png".data).1 ∧
    (extract_text_from_image envOcrRaises ∅ "http://example.com/a.png".data).2 =
      "Ошибка обработки изображения".data := by
  constructor
  · decide
  · decide

/-- C5 (amended): when the image is fetched and passes the size and type
checks, the temporary file is deleted immediately after OCR if
`pytesseract` returns (even when the result is empty), but is left on disk
when `pytesseract` raises. -/
theorem temp_image_deleted_iff_ocr_returns (env : Env)
    (tempFiles : Finset (List Char)) (img_url : List Char) (resp : ImgResp)
    (hen : env.ocr_enabled = true)
    (hfetch : env.imgFetch img_url = some resp)
    (hsize : resp.contentLength ≤ env.max_file_size)
    (htype : containsSeq resp.contentType "image".data = true) :
    (∀ t, env.ocr (tempPathOf img_url) = .ok t →
      tempPathOf img_url ∉ (extract_text_from_image env tempFiles img_url).1) ∧
    (∀ e, env.ocr (tempPathOf img_url) = .error e →
      tempPathOf img_url ∈ (extract_text_from_image env tempFiles img_url).1) := by
  unfold extract_text_from_image
  rw [hen, hfetch]
  have hs : ¬ env.max_file_size < resp.contentLength := Nat.not_lt.mpr hsize
  simp only [Bool.not_true, Bool.false_eq_true, if_false, hs, htype]
  constructor
  · intro t ht
    rw [ht]
    simp
  · intro e he
    rw [he]
    simp

theorem temp_image_deleted_iff_ocr_returns_witness :
    tempPathOf "http://example.com/a.png".data ∉
      (extract_text_from_image envOcrReturns ∅ "http://example.com/a.png".data).1 :=
  (temp_image_deleted_iff_ocr_returns envOcrReturns ∅
      "http://example.com/a.png".data ⟨0, "image/png".data⟩
      rfl rfl (by decide) (by decide)).1 "привет мир".data rfl

/-! ### State-effect lemmas for the crawler -/

theorem foldl_preserve {α : Type} {P : ScrapeState → Prop}
    {f : ScrapeState → α → ScrapeState}
    (hf : ∀ s u, P s → P (f s u)) :
    ∀ (l : List α) (st : ScrapeState), P st → P (l.foldl f st) := by
  intro l
  induction l with
  | nil => intro st h; exact h
  | cons x rest ih =>
    intro st h
    exact ih _ (hf st x h)

theorem download_file_effect (env : Env) (st : ScrapeState) (url : List Char)
    (file_type : List Char) :
    ((download_file env st url file_type).1).visited_urls = st.visited_urls ∧
    ((download_file env st url file_type).1).fetchLog = st.fetchLog ∧
    ((download_file env st url file_type).1).tempFiles = st.tempFiles ∧
    ((download_file env st url file_type).1).data = st.data := by
  unfold download_file
  by_cases h : env.dlFetch url = true
  · simp [h]
  · rw [Bool.not_eq_true] at h
    simp [h]

theorem extract_from_pdf_effect (env : Env) (st : ScrapeState)
    (pdf_url : List Char) :
    (((extract_from_pdf env st pdf_url).1).visited_urls = st.visited_urls ∧
     ((extract_from_pdf env st pdf_url).1).fetchLog = st.fetchLog ∧
     ((extract_from_pdf env st pdf_url).1).tempFiles = st.tempFiles ∧
     ((extract_from_pdf env st pdf_url).1).data = st.data) ∧
    ((extract_from_pdf env st pdf_url).2).text = none := by
  unfold extract_from_pdf
  cases hf : env.pdfFetch pdf_url with
  | none => simp
  | some resp =>
    by_cases hs : env.max_file_size < resp.contentLength
    · simp [hs]
    · simp only [hs, if_false, pdf_extract_text]
      by_cases hd : env.download_documents = true
      · simp only [hd, if_true]
        exact ⟨download_file_effect env st pdf_url "pdf".data, trivial⟩
      · rw [Bool.not_eq_true] at hd
        simp [hd]

theorem processPdfLinks_effect (env : Env) : ∀ (l : List (List Char))
    (st : ScrapeState),
    (((processPdfLinks env st l).1).visited_urls = st.visited_urls ∧
     ((processPdfLinks env st l).1).fetchLog = st.fetchLog ∧
     ((processPdfLinks env st l).1).tempFiles = st.tempFiles ∧
     ((processPdfLinks env st l).1).data = st.data) ∧
    (processPdfLinks env st l).2 = [] := by
  intro l
  induction l with
  | nil => intro st; exact ⟨⟨rfl, rfl, rfl, rfl⟩, rfl⟩
  | cons u rest ih =>
    intro st
    have hstep := extract_from_pdf_effect env st u
    have htail := ih (extract_from_pdf env st u).1
    simp only [processPdfLinks]
    rw [hstep.2]
    refine ⟨⟨?_, ?_, ?_, ?_⟩, ?_⟩
    · show (processPdfLinks env (extract_from_pdf env st u).1 rest).1.visited_urls =
        st.visited_urls
      rw [htail.1.1, hstep.1.1]
    · show (processPdfLinks env (extract_from_pdf env st u).1 rest).1.fetchLog =
        st.fetchLog
      rw [htail.1.2.1, hstep.1.2.1]
    · show (processPdfLinks env (extract_from_pdf env st u).1 rest).1.tempFiles =
        st.tempFiles
      rw [htail.1.2.2.1, hstep.1.2.2.1]
    · show (processPdfLinks env (extract_from_pdf env st u).1 rest).1.data = st.data
      rw [htail.1.2.2.2, hstep.1.2.2.2]
    · show (processPdfLinks env (extract_from_pdf env st u).1 rest).2 = []
      exact htail.2

theorem scrape_body_effect (env : Env) (st : ScrapeState) (url : List Char)
    (resp : PageResp) :
    ((scrape_body env st url resp).1.visited_urls = st.visited_urls ∧
     (scrape_body env st url resp).1.fetchLog = st.fetchLog) ∧
    ∃ newRecs, (scrape_body env st url resp).1.data = st.data ++ newRecs ∧
      ∀ r ∈ newRecs, r.files_content = [] := by
  unfold scrape_body
  by_cases hct : containsSeq resp.contentType "text/html".data = true
  · simp only [hct, Bool.not_true, Bool.false_eq_true, if_false]
    set soup := decomposeForest resp.doc with hsoup
    set imgRes := (if env.ocr_enabled then
        processImgs env url st.tempFiles (findImgsForest soup)
      else (st.tempFiles, [])) with himg
    set links := extract_links env.root_url url (findAnchorsForest soup) with hlinks
    have hpdf := processPdfLinks_effect env (links.files_pdf.take 3)
      { st with tempFiles := imgRes.1 }
    refine ⟨⟨?_, ?_⟩, ?_⟩
    · exact hpdf.1.1
    · exact hpdf.1.2.1
    · refine ⟨[⟨url,
          joinNl ((splitNl (get_text_nl soup)).filter
            (fun line => !(pyStrip line).isEmpty)),
          imgRes.2, links,
          (processPdfLinks env { st with tempFiles := imgRes.1 }
            (links.files_pdf.take 3)).2⟩], ?_, ?_⟩
      · rw [hpdf.1.2.2.2]
      · intro r hr
        rw [List.mem_singleton] at hr
        rw [hr]
        exact hpdf.2
  · rw [Bool.not_eq_true] at hct
    simp only [hct, Bool.not_false, eq_self_iff_true, if_true]
    exact ⟨⟨by simp, by simp⟩, [], by simp, by simp⟩

theorem scrape_page_card_le (env : Env) : ∀ (fuel : Nat) (st : ScrapeState)
    (url : List Char),
    st.visited_urls.card ≤ env.max_pages →
    (scrape_page env fuel st url).visited_urls.card ≤ env.max_pages := by
  intro fuel
  induction fuel with
  | zero => intro st url h; exact h
  | succ fuel ih =>
    intro st url h
    rw [scrape_page]
    by_cases hg : url ∈ st.visited_urls ∨ env.max_pages ≤ st.visited_urls.card
    · rw [if_pos hg]
      exact h
    · rw [if_neg hg]
      push_neg at hg
      have hmark : (markVisited st url).visited_urls.card ≤ env.max_pages := by
        simp only [markVisited]
        have hle := Finset.card_insert_le url st.visited_urls
        omega
      cases hfetch : env.pageFetch url with
      | none => exact hmark
      | some resp =>
        show ((scrape_body env (markVisited st url) url resp).2.foldl
          (fun s l => scrape_page env fuel s l)
          (scrape_body env (markVisited st url) url resp).1).visited_urls.card ≤
            env.max_pages
        apply foldl_preserve
          (P := fun s => s.visited_urls.card ≤ env.max_pages)
          (fun s u hp => ih s u hp)
        rw [(scrape_body_effect env (markVisited st url) url resp).1.1]
        exact hmark

theorem scrape_page_fetch_inv (env : Env) : ∀ (fuel : Nat) (st : ScrapeState)
    (url : List Char),
    st.fetchLog.Nodup → (∀ u ∈ st.fetchLog, u ∈ st.visited_urls) →
    (scrape_page env fuel st url).fetchLog.Nodup ∧
      ∀ u ∈ (scrape_page env fuel st url).fetchLog,
        u ∈ (scrape_page env fuel st url).visited_urls := by
  intro fuel
  induction fuel with
  | zero => intro st url h1 h2; exact ⟨h1, h2⟩
  | succ fuel ih =>
    intro st url h1 h2
    rw [scrape_page]
    by_cases hg : url ∈ st.visited_urls ∨ env.max_pages ≤ st.visited_urls.card
    · rw [if_pos hg]
      exact ⟨h1, h2⟩
    · rw [if_neg hg]
      push_neg at hg
      have hmark : (markVisited st url).fetchLog.Nodup ∧
          ∀ u ∈ (markVisited st url).fetchLog,
            u ∈ (markVisited st url).visited_urls := by
        constructor
        · have hnotlog : url ∉ st.fetchLog := fun hmem => hg.1 (h2 url hmem)
          simp only [markVisited]
          simp [List.nodup_append, h1, hnotlog]
        · intro u hu
          simp only [markVisited, List.mem_append, List.mem_singleton] at hu
          simp only [markVisited, Finset.mem_insert]
          rcases hu with hu | hu
          · exact Or.inr (h2 u hu)
          · exact Or.inl hu
      cases hfetch : env.pageFetch url with
      | none => exact hmark
      | some resp =>
        show ((scrape_body env (markVisited st url) url resp).2.foldl
            (fun s l => scrape_page env fuel s l)
            (scrape_body env (markVisited st url) url resp).1).fetchLog.Nodup ∧
          ∀ u ∈ _, u ∈ _
        apply foldl_preserve
          (P := fun s => s.fetchLog.Nodup ∧ ∀ u ∈ s.fetchLog, u ∈ s.visited_urls)
          (fun s u hp => ih s u hp.1 hp.2)
        have hb := (scrape_body_effect env (markVisited st url) url resp).1
        rw [hb.2, hb.1]
        exact hmark

theorem scrape_page_data_pred (env : Env) (P : PageRecord → Prop)
    (hP : ∀ r : PageRecord, r.files_content = [] → P r) :
    ∀ (fuel : Nat) (st : ScrapeState) (url : List Char),
    (∀ r ∈ st.data, P r) →
    ∀ r ∈ (scrape_page env fuel st url).data, P r := by
  intro fuel
  induction fuel with
  | zero => intro st url h; exact h
  | succ fuel ih =>
    intro st url h
    rw [scrape_page]
    by_cases hg : url ∈ st.visited_urls ∨ env.max_pages ≤ st.visited_urls.card
    · rw [if_pos hg]
      exact h
    · rw [if_neg hg]
      have hmark : ∀ r ∈ (markVisited st url).data, P r := h
      cases hfetch : env.pageFetch url with
      | none => exact hmark
      | some resp =>
        show ∀ r ∈ ((scrape_body env (markVisited st url) url resp).2.foldl
          (fun s l => scrape_page env fuel s l)
          (scrape_body env (markVisited st url) url resp).1).data, P r
        apply foldl_preserve
          (P := fun s => ∀ r ∈ s.data, P r)
          (fun s u hp => ih s u hp)
        obtain ⟨newRecs, hdata, hnew⟩ :=
          (scrape_body_effect env (markVisited st url) url resp).2
        rw [hdata]
        intro r hr
        rw [List.mem_append] at hr
        rcases hr with hr | hr
        · exact hmark r hr
        · exact hP r (hnew r hr)

theorem processPdfLinks_shape (env : Env) : ∀ (l : List (List Char))
    (st : ScrapeState),
    (processPdfLinks env st l).2.length ≤ l.length ∧
    ∀ e ∈ (processPdfLinks env st l).2,
      ∃ t, t.isEmpty = false ∧ e.content = truncateContent t := by
  intro l
  induction l with
  | nil =>
    intro st
    refine ⟨Nat.le_refl _, ?_⟩
    intro e he
    simp [processPdfLinks] at he
  | cons u rest ih =>
    intro st
    have htail := ih (extract_from_pdf env st u).1
    simp only [processPdfLinks]
    cases htext : (extract_from_pdf env st u).2.text with
    | none =>
      exact ⟨Nat.le_succ_of_le htail.1, htail.2⟩
    | some t =>
      by_cases hemp : (!t.isEmpty) = true
      · simp only [hemp, if_true]
        constructor
        · exact Nat.succ_le_succ htail.1
        · intro e he
          rw [List.mem_cons] at he
          rcases he with he | he
          · refine ⟨t, ?_, ?_⟩
            · rw [Bool.not_eq_true'] at hemp
              exact hemp
            · rw [he]
          · exact htail.2 e he
      · rw [Bool.not_eq_true] at hemp
        simp only [hemp, Bool.false_eq_true, if_false]
        exact ⟨Nat.le_succ_of_le htail.1, htail.2⟩

/-- C1: at every point during a crawl the number of URLs in `visited_urls`
is at most `max_pages`: `scrape_page` returns its state unchanged whenever
`len(visited_urls) >= max_pages`, and from any state respecting the cap,
every state produced by `scrape_page` (at any recursion depth) still
respects it. -/
theorem visited_never_exceeds_max_pages :
    (∀ (env : Env) (fuel : Nat) (st : ScrapeState) (url : List Char),
       env.max_pages ≤ st.visited_urls.card → scrape_page env fuel st url = st) ∧
    (∀ (env : Env) (fuel : Nat) (st : ScrapeState) (url : List Char),
       st.visited_urls.card ≤ env.max_pages →
       (scrape_page env fuel st url).visited_urls.card ≤ env.max_pages) := by
  constructor
  · intro env fuel st url h
    cases fuel with
    | zero => rfl
    | succ fuel => rw [scrape_page, if_pos (Or.inr h)]
  · intro env fuel st url h
    exact scrape_page_card_le env fuel st url h

theorem visited_never_exceeds_max_pages_witness :
    scrape_page envCapZero 5 initialState "http://example.com".data =
      initialState ∧
    (scrape_page envOcrRaises 5 initialState
        "http://example.com".data).visited_urls.card ≤ envOcrRaises.max_pages :=
  ⟨visited_never_exceeds_max_pages.1 envCapZero 5 initialState
     "http://example.com".data (by decide),
   visited_never_exceeds_max_pages.2 envOcrRaises 5 initialState
     "http://example.com".data (by decide)⟩

/-- C2: every URL is fetched at most once per crawl: `scrape_page` returns
its state unchanged (no fetch) when the URL is already visited, and —
because each URL is added to `visited_urls` before its fetch is issued —
the fetch log stays duplicate-free and below `visited_urls` throughout the
crawl. -/
theorem url_fetched_at_most_once :
    (∀ (env : Env) (fuel : Nat) (st : ScrapeState) (url : List Char),
       url ∈ st.visited_urls → scrape_page env fuel st url = st) ∧
    (∀ (env : Env) (fuel : Nat) (st : ScrapeState) (url : List Char),
       st.fetchLog.Nodup → (∀ u ∈ st.fetchLog, u ∈ st.visited_urls) →
       (scrape_page env fuel st url).fetchLog.Nodup ∧
         ∀ u ∈ (scrape_page env fuel st url).fetchLog,
           u ∈ (scrape_page env fuel st url).visited_urls) := by
  constructor
  · intro env fuel st url h
    cases fuel with
    | zero => rfl
    | succ fuel => rw [scrape_page, if_pos (Or.inl h)]
  · intro env fuel st url h1 h2
    exact scrape_page_fetch_inv env fuel st url h1 h2

theorem url_fetched_at_most_once_witness :
    scrape_page envOcrRaises 5 stVisited "http://example.com".data = stVisited ∧
    ((scrape_page envOcrRaises 5 initialState
        "http://example.com".data).fetchLog.Nodup ∧
     ∀ u ∈ (scrape_page envOcrRaises 5 initialState
         "http://example.com".data).fetchLog,
       u ∈ (scrape_page envOcrRaises 5 initialState
         "http://example.com".data).visited_urls) :=
  ⟨url_fetched_at_most_once.1 envOcrRaises 5 stVisited
     "http://example.com".data (by decide),
   url_fetched_at_most_once.2 envOcrRaises 5 initialState
     "http://example.com".data (by decide) (by decide)⟩

/-- C7: `extract_from_pdf` always returns `{'text': None, 'local_path':
None}` (the call to the never-imported `pdf_extract_text` raises
`NameError`, converted by the `except` to the failure value); consequently
every `PageRecord` produced by the crawler has empty `files_content`; yet
when document-downloading is enabled and the fetch, size check and download
succeed, `download_file` still writes the PDF bytes to
`downloaded_documents` before the failure occurs. -/
theorem extract_from_pdf_always_fails :
    (∀ (env : Env) (st : ScrapeState) (pdf_url : List Char),
       (extract_from_pdf env st pdf_url).2 = ⟨none, none⟩) ∧
    (∀ (env : Env) (fuel : Nat) (st : ScrapeState) (url : List Char),
       (∀ r ∈ st.data, r.files_content = []) →
       ∀ r ∈ (scrape_page env fuel st url).data, r.files_content = []) ∧
    (∀ (env : Env) (st : ScrapeState) (pdf_url : List Char) (resp : PdfResp),
       env.pdfFetch pdf_url = some resp →
       resp.contentLength ≤ env.max_file_size →
       env.download_documents = true → env.dlFetch pdf_url = true →
       ((extract_from_pdf env st pdf_url).1).downloads = st.downloads ++
         ["downloaded_documents/document_".data ++
           (toString st.visited_urls.card).data ++ "_pdf.pdf".data]) := by
  refine ⟨?_, ?_, ?_⟩
  · intro env st pdf_url
    unfold extract_from_pdf
    cases hf : env.pdfFetch pdf_url with
    | none => rfl
    | some resp =>
      by_cases hs : env.max_file_size < resp.contentLength
      · simp [hs]
      · simp [hs, pdf_extract_text]
  · intro env fuel st url h
    exact scrape_page_data_pred env (fun r => r.files_content = [])
      (fun r hr => hr) fuel st url h
  · intro env st pdf_url resp hf hs hd hdl
    unfold extract_from_pdf
    rw [hf]
    have hs2 : ¬ env.max_file_size < resp.contentLength := Nat.not_lt.mpr hs
    simp only [hs2, if_false, hd, if_true, pdf_extract_text]
    unfold download_file
    simp only [hdl, if_true]
    simp [List.append_assoc]

theorem extract_from_pdf_always_fails_witness :
    (extract_from_pdf envPdfDl initialState
       "http://example.com/d.pdf".data).2 = ⟨none, none⟩ ∧
    (∀ r ∈ (scrape_page envPdfDl 3 initialState "http://e.com".data).data,
       r.files_content = []) ∧
    ((extract_from_pdf envPdfDl initialState
        "http://example.com/d.pdf".data).1).downloads =
      initialState.downloads ++ ["downloaded_documents/document_".data ++
        (toString initialState.visited_urls.card).data ++ "_pdf.pdf".data] :=
  ⟨extract_from_pdf_always_fails.1 envPdfDl initialState
     "http://example.com/d.pdf".data,
   extract_from_pdf_always_fails.2.1 envPdfDl 3 initialState
     "http://e.com".data (by simp [initialState]),
   extract_from_pdf_always_fails.2.2 envPdfDl initialState
     "http://example.com/d.pdf".data ⟨100⟩ rfl (by decide) rfl rfl⟩

/-- C8: every `PageRecord` has at most 3 `files_content` entries (the
per-page PDF fan-out cap `[:3]`), and each entry's content is the extracted
text when its length is at most 10,000 characters and otherwise its first
10,000 characters followed by `"..."` (the rule `truncateContent`). -/
theorem files_content_bounded :
    (∀ (env : Env) (st : ScrapeState) (l : List (List Char)),
       (processPdfLinks env st (l.take 3)).2.length ≤ 3 ∧
       ∀ e ∈ (processPdfLinks env st (l.take 3)).2,
         ∃ t, t.isEmpty = false ∧ e.content = truncateContent t) ∧
    (∀ (env : Env) (fuel : Nat) (st : ScrapeState) (url : List Char),
       (∀ r ∈ st.data, r.files_content.length ≤ 3 ∧
          ∀ e ∈ r.files_content, ∃ t, t.isEmpty = false ∧
            e.content = truncateContent t) →
       ∀ r ∈ (scrape_page env fuel st url).data,
         r.files_content.length ≤ 3 ∧
         ∀ e ∈ r.files_content, ∃ t, t.isEmpty = false ∧
           e.content = truncateContent t) := by
  constructor
  · intro env st l
    have h := processPdfLinks_shape env (l.take 3) st
    refine ⟨le_trans h.1 ?_, h.2⟩
    rw [List.length_take]
    exact min_le_left _ _
  · intro env fuel st url h
    refine scrape_page_data_pred env _ ?_ fuel st url h
    intro r hr
    rw [hr]
    exact ⟨by simp, by simp⟩

theorem files_content_bounded_witness :
    ((processPdfLinks envPdfDl initialState
        (["a".data, "b".data, "c".data, "d".data].take 3)).2.length ≤ 3 ∧
     ∀ e ∈ (processPdfLinks envPdfDl initialState
         (["a".data, "b".data, "c".data, "d".data].take 3)).2,
       ∃ t, t.isEmpty = false ∧ e.content = truncateContent t) ∧
    ∀ r ∈ (scrape_page envPdfDl 3 initialState "http://e.com".data).data,
      r.files_content.length ≤ 3 ∧
      ∀ e ∈ r.files_content, ∃ t, t.isEmpty = false ∧
        e.content = truncateContent t :=
  ⟨files_content_bounded.1 envPdfDl initialState
     ["a".data, "b".data, "c".data, "d".data],
   files_content_bounded.2 envPdfDl 3 initialState "http://e.com".data
     (by simp [initialState])⟩

/-- C10: if the language-model call raises for the question at index `k` of
the fixed list, the `(question, answer)` pairs for all the other questions
are still produced — one pair per question, in original question order,
with the succeeding questions carrying their (stripped) completions — and
`save_answers` writes exactly one block per question to the answers file,
in original question order. -/
theorem llm_failure_keeps_other_answers (env : LlmEnv) (summary : List Char)
    (questions : List (List Char)) (k : Nat) (f : Nat → List Char)
    (hok : ∀ (j : Nat) (hj : j < questions.length), j ≠ k →
       env.complete (promptFor summary (questions.get ⟨j, hj⟩)) =
         .ok (f j)) :
    (answer_questions env summary questions).length = questions.length ∧
    (answer_questions env summary questions).map Prod.fst = questions ∧
    (∀ (j : Nat) (hj : j < questions.length)
       (hj2 : j < (answer_questions env summary questions).length), j ≠ k →
       (answer_questions env summary questions).get ⟨j, hj2⟩ =
         (questions.get ⟨j, hj⟩, some (pyStrip (f j)))) ∧
    save_answers (answer_questions env summary questions) =
      (questions.map fun q =>
        answerBlock (q, call_llm env (promptFor summary q))).flatten := by
  refine ⟨?_, ?_, ?_, ?_⟩
  · simp [answer_questions]
  · rw [answer_questions, List.map_map]
    show List.map id questions = questions
    exact List.map_id questions
  · intro j hj hj2 hne
    have h2 := hok j hj hne
    rw [List.get_eq_getElem] at h2
    simp only [answer_questions, List.get_eq_getElem, List.getElem_map]
    rw [call_llm, h2]
  · simp [save_answers, answer_questions, List.map_map]
    rfl

theorem llm_failure_keeps_other_answers_witness :
    (answer_questions llmFailsOn3 "текст".data qs5).length = qs5.length ∧
    (answer_questions llmFailsOn3 "текст".data qs5).map Prod.fst = qs5 ∧
    (∀ (j : Nat) (hj : j < qs5.length)
       (hj2 : j < (answer_questions llmFailsOn3 "текст".data qs5).length),
       j ≠ 2 →
       (answer_questions llmFailsOn3 "текст".data qs5).get ⟨j, hj2⟩ =
         (qs5.get ⟨j, hj⟩, some (pyStrip " ответ ".data))) ∧
    save_answers (answer_questions llmFailsOn3 "текст".data qs5) =
      (qs5.map fun q =>
        answerBlock (q, call_llm llmFailsOn3 (promptFor "текст".data q))).flatten :=
  llm_failure_keeps_other_answers llmFailsOn3 "текст".data qs5 2
    (fun _ => " ответ ".data)
    (by
      intro j hj hne
      have key : ∀ j2 ∈ [0, 1, 3, 4], ∀ (h : j2 < qs5.length),
          llmFailsOn3.complete (promptFor "текст".data (qs5.get ⟨j2, h⟩)) =
            Except.ok " ответ ".data := by decide
      have hmem : j ∈ [0, 1, 3, 4] := by
        have h5 : j < 5 := hj
        have hj4 : j = 0 ∨ j = 1 ∨ j = 3 ∨ j = 4 := by omega
        rcases hj4 with h | h | h | h <;> simp [h]
      exact key j hmem hj)
